import Mathlib

/-!
# go-hatenarss: a shallow embedding of `hatenarss.go`

The library fetches a Hatena bookmark RSS feed (`Get`, for one of ten categories)
and offers in-place post-processing of the decoded `[]Item`: `Filter` (with three
ready-made predicates) and `SortByBookmarkCount`.

Modelling conventions.

* A Go `string` is an immutable byte sequence: `GoString := List UInt8`.
* A Go `int` is modelled by `Int`; the code only compares and indexes with it,
  it never does arithmetic on it, so no wrap-around can occur.
* A Go slice `[]Item` is what can be reached through its header
  (pointer, len, cap): the `len` visible elements and the `cap - len` cells of
  the backing array that lie behind them.
* A run-time panic is `none`; a call that ends the process in `log.Fatal` is
  `Outcome.fatal`.
* The network and the standard library functions `Get` calls (the HTTP client,
  `ioutil.ReadAll`, `xml.Unmarshal`, `fmt.Errorf`) are outside the repository: the
  answers of the client and of the decoder are parameters (`World`), the response
  body is a state that records what has been read and whether it is closed.
* `sort.Sort` and `strings.Contains` belong to the Go standard library, not to this
  repository. `strings.Contains` is modelled by its documented meaning;
  `sort.Sort` is a parameter: the strategy by which it drives the three methods
  of `sort.Interface`.
-/

namespace Hatenarss

/-! ## Data model -/

/-- A Go `string`: a sequence of bytes. -/
abbrev GoString := List UInt8

/-- The standard library's `time.Time`, by its three fields (`wall`, `ext` and the
location pointer `loc`). The code here only stores and copies such values. -/
structure Time where
  wall : Nat
  ext : Int
  loc : Nat
deriving DecidableEq, Repr

/-- `type Item struct`: one article of the feed, seven fields. -/
structure Item where
  Title : GoString
  Link : GoString
  Description : GoString
  Content : GoString
  Date : Time
  Subject : GoString
  BookmarkCount : Int
deriving DecidableEq, Repr

/-- A value of type `[]Item`, seen through its slice header: `elems` are the
elements `s[0] .. s[len-1]`, `spare` the contents of the backing array between
`len` and `cap`. -/
structure Slice where
  elems : List Item
  spare : List Item
deriving DecidableEq, Repr

/-- `len(s)`. -/
def Slice.len (s : Slice) : Nat := s.elems.length

/-- `cap(s)`. -/
def Slice.cap (s : Slice) : Nat := s.elems.length + s.spare.length

/-- The cells of the backing array from the slice's pointer up to its capacity. -/
def Slice.backing (s : Slice) : List Item := s.elems ++ s.spare

/-! ## `strings.Contains` (standard library) -/

/-- `strings.HasPrefix(s, p)`: `s` begins with the bytes of `p`. -/
def startsWith : GoString → GoString → Bool
  | _, [] => true
  | [], _ :: _ => false
  | c :: s, d :: p => if c = d then startsWith s p else false

/-- `strings.Contains(s, substr)`: reports whether `substr` occurs in `s` as a
contiguous run of bytes, at some offset `0 .. len(s)`. -/
def stringsContains : GoString → GoString → Bool
  | [], substr => startsWith [] substr
  | c :: s, substr => if startsWith (c :: s) substr then true else stringsContains s substr

/-! ## `Filter` -/

/-- The local variable `filteredItem` of `Filter`. It starts as `(*items)[:0]`, a
slice of length `0` over the backing array of `*items`; `shared w` is that slice
grown to length `w`, still over the same array. `fresh own` is a slice over an
array of its own, which `append` allocates when the capacity is used up. -/
inductive Dest where
  | shared (w : Nat)
  | fresh (own : List Item)
deriving DecidableEq, Repr

/-- The memory `Filter` works on: the backing array of `*items`, and where
`filteredItem` points. -/
structure FilterState where
  backing : List Item
  dest : Dest
deriving DecidableEq, Repr

/-- The statement `filteredItem = append(filteredItem, item)`. While the length
`w` is below the capacity, `append` writes cell `w` of the shared backing array
and returns the slice one longer; at full capacity it copies the `w` elements to a
new array and appends there. -/
def FilterState.append (st : FilterState) (item : Item) : FilterState :=
  match st.dest with
  | .shared w =>
    if w < st.backing.length then
      { backing := st.backing.set w item, dest := .shared (w + 1) }
    else
      { backing := st.backing, dest := .fresh (st.backing.take w ++ [item]) }
  | .fresh own => { backing := st.backing, dest := .fresh (own ++ [item]) }

/-- The loop `for _, item := range *items` of `Filter`, from index `i` for `k` more
iterations. The range expression is evaluated once, so the bounds are fixed, and
each iteration reads cell `i` of the backing array as it is at that moment. -/
def Filter.loop (reject : Item → Bool) : Nat → Nat → FilterState → Option FilterState
  | 0, _, st => some st
  | k + 1, i, st =>
    match st.backing[i]? with
    | none => none
    | some item =>
      Filter.loop reject k (i + 1) (if !reject item then st.append item else st)

/-- The slice that `filteredItem` denotes when the loop is over; `*items` is set to
it. (The spare cells of a freshly allocated array are not modelled; the loop never
allocates one.) -/
def FilterState.result (st : FilterState) : Slice :=
  match st.dest with
  | .shared w => { elems := st.backing.take w, spare := st.backing.drop w }
  | .fresh own => { elems := own, spare := [] }

/-- `func Filter(items *[]Item, reject func(item Item) bool)`: the new value of
`*items`. -/
def Filter (items : Slice) (reject : Item → Bool) : Option Slice :=
  match Filter.loop reject items.len 0 { backing := items.backing, dest := .shared 0 } with
  | none => none
  | some st => some st.result

/-- `func FilterByBookmarkCount(items *[]Item, threshold int)`. -/
def FilterByBookmarkCount (items : Slice) (threshold : Int) : Option Slice :=
  Filter items (fun item => decide (item.BookmarkCount < threshold))

/-- The body shared by the closures of `FilterByTitle` and `FilterByLink`:
`for _, p := range patterns { if strings.Contains(field, p) { return true } }; return false`. -/
def containsAny (field : GoString) : List GoString → Bool
  | [] => false
  | p :: ps => if stringsContains field p then true else containsAny field ps

/-- `func FilterByTitle(items *[]Item, patterns ...string)`. -/
def FilterByTitle (items : Slice) (patterns : List GoString) : Option Slice :=
  Filter items (fun item => containsAny item.Title patterns)

/-- `func FilterByLink(items *[]Item, patterns ...string)`. -/
def FilterByLink (items : Slice) (patterns : List GoString) : Option Slice :=
  Filter items (fun item => containsAny item.Link patterns)

/-! ## `SortByBookmarkCount` -/

/-- The indexing expression `s[i]` with a Go `int` index: a run-time panic unless
`0 ≤ i < len(s)`. -/
def index {α : Type} (s : List α) (i : Int) : Option α :=
  if i < 0 then none else s[i.toNat]?

/-- `sort.Interface`: the three methods through which `sort.Sort` reads and
changes the data. `Less` and `Swap` may panic. -/
structure Interface (σ : Type) where
  Len : σ → Int
  Less : σ → Int → Int → Option Bool
  Swap : σ → Int → Int → Option σ

/-- `type hatenaItems []Item`. -/
abbrev hatenaItems := Slice

/-- `func (items hatenaItems) Len() int`. -/
def hatenaItems.Len (items : hatenaItems) : Int := items.elems.length

/-- `func (items hatenaItems) Swap(i, j int)`: `items[i], items[j] = items[j], items[i]`.
Both right-hand operands are read before either cell is written. -/
def hatenaItems.Swap (items : hatenaItems) (i j : Int) : Option hatenaItems :=
  match index items.elems j, index items.elems i with
  | some atJ, some atI =>
    some { elems := (items.elems.set i.toNat atJ).set j.toNat atI, spare := items.spare }
  | _, _ => none

/-- `func (items hatenaItems) Less(i, j int) bool`:
`items[i].BookmarkCount < items[j].BookmarkCount`. -/
def hatenaItems.Less (items : hatenaItems) (i j : Int) : Option Bool :=
  match index items.elems i, index items.elems j with
  | some atI, some atJ => some (decide (atI.BookmarkCount < atJ.BookmarkCount))
  | _, _ => none

/-- The method set of `hatenaItems`, as a `sort.Interface`. -/
def hatenaItems.methods : Interface hatenaItems where
  Len := hatenaItems.Len
  Less := hatenaItems.Less
  Swap := hatenaItems.Swap

/-- What `sort.Sort` does once it knows `n = data.Len()`: it asks `data.Less(i, j)`
and goes on according to the answer, calls `data.Swap(i, j)`, or returns. It has
no other access to the data. -/
inductive SortProg where
  | done : SortProg
  | swap (i j : Int) (next : SortProg) : SortProg
  | less (i j : Int) (yes no : SortProg) : SortProg
deriving Repr

/-- Run a strategy against an implementation of `sort.Interface`. -/
def SortProg.run {σ : Type} (data : Interface σ) : SortProg → σ → Option σ
  | .done, x => some x
  | .swap i j next, x =>
    match data.Swap x i j with
    | none => none
    | some y => next.run data y
  | .less i j yes no, x =>
    match data.Less x i j with
    | none => none
    | some true => yes.run data x
    | some false => no.run data x

/-- Every index the strategy passes to `Less` or `Swap` lies in `0 .. n-1`. -/
def SortProg.inRange (n : Int) : SortProg → Bool
  | .done => true
  | .swap i j next => decide (0 ≤ i ∧ i < n ∧ 0 ≤ j ∧ j < n) && next.inRange n
  | .less i j yes no =>
    decide (0 ≤ i ∧ i < n ∧ 0 ≤ j ∧ j < n) && (yes.inRange n && no.inRange n)

/-- The standard library's `sort.Sort`, as far as a caller can tell: one strategy
for each value of `data.Len()`. -/
abbrev SortStrategy := Int → SortProg

/-- `sort.Sort(data)`: `n := data.Len()`, then the strategy for `n`. -/
def sortSort {σ : Type} (strategy : SortStrategy) (data : Interface σ) (x : σ) : Option σ :=
  (strategy (data.Len x)).run data x

/-- `func SortByBookmarkCount(items []Item)`: `var h hatenaItems = items; sort.Sort(h)`.
`h` shares the backing array of `items`, so the caller sees the result. -/
def SortByBookmarkCount (strategy : SortStrategy) (items : Slice) : Option Slice :=
  sortSort strategy hatenaItems.methods items

/-- The standard library's `sort.IntSlice`: `Len`, `Less` (`x[i] < x[j]`) and `Swap`
on a plain `[]int`. -/
def IntSlice : Interface (List Int) where
  Len := fun x => x.length
  Less := fun x i j =>
    match index x i, index x j with
    | some atI, some atJ => some (decide (atI < atJ))
    | _, _ => none
  Swap := fun x i j =>
    match index x j, index x i with
    | some atJ, some atI => some ((x.set i.toNat atJ).set j.toNat atI)
    | _, _ => none

/-- The inner loop of the standard library's `insertionSort`:
`for j := i; j > a && data.Less(j, j-1); j-- { data.Swap(j, j-1) }`, then `rest`. -/
def insertionInner (a : Int) (rest : SortProg) : Nat → Int → SortProg
  | 0, _ => rest
  | k + 1, j =>
    if j > a then
      .less j (j - 1) (.swap j (j - 1) (insertionInner a rest k (j - 1))) rest
    else rest

/-- The outer loop of `insertionSort`: `for i := a + 1; i < b; i++`. -/
def insertionOuter (a b : Int) : Nat → Int → SortProg
  | 0, _ => .done
  | k + 1, i =>
    if i < b then insertionInner a (insertionOuter a b k (i + 1)) (i - a).toNat i
    else .done

/-- The standard library's `insertionSort(data, 0, n)`, the routine `sort.Sort`
uses on short inputs; a sample strategy. -/
def insertionSort : SortStrategy := fun n => insertionOuter 0 n n.toNat 1

/-- The bookmark counts of a slice's elements, in order. -/
def counts (items : Slice) : List Int := items.elems.map (fun item => item.BookmarkCount)

/-! ## Category registry -/

/-- `type FeedCategory int`. -/
abbrev FeedCategory := Int

/-- `FeedCategoryAll FeedCategory = iota`: the first constant of the block, `0`. -/
def FeedCategoryAll : FeedCategory := 0
/-- The second constant of the block, `iota = 1`. -/
def FeedCategorySocial : FeedCategory := 1
/-- The third constant of the block, `iota = 2`. -/
def FeedCategoryEconomics : FeedCategory := 2
/-- The fourth constant of the block, `iota = 3`. -/
def FeedCategoryLife : FeedCategory := 3
/-- The fifth constant of the block, `iota = 4`. -/
def FeedCategoryKnowledge : FeedCategory := 4
/-- The sixth constant of the block, `iota = 5`. -/
def FeedCategoryIt : FeedCategory := 5
/-- The seventh constant of the block, `iota = 6`. -/
def FeedCategoryEntertainment : FeedCategory := 6
/-- The eighth constant of the block, `iota = 7`. -/
def FeedCategoryGame : FeedCategory := 7
/-- The ninth constant of the block, `iota = 8`. -/
def FeedCategoryFun : FeedCategory := 8
/-- The tenth constant of the block, `iota = 9`. -/
def FeedCategoryVideo : FeedCategory := 9

/-- `func GetFeedCategoryList() []FeedCategory`: a new slice on every call, built
from the composite literal. -/
def GetFeedCategoryList : List FeedCategory :=
  [ FeedCategoryAll,
    FeedCategorySocial,
    FeedCategoryEconomics,
    FeedCategoryLife,
    FeedCategoryKnowledge,
    FeedCategoryIt,
    FeedCategoryEntertainment,
    FeedCategoryGame,
    FeedCategoryFun,
    FeedCategoryVideo ]

/-- A Go string literal: the UTF-8 bytes of its text. -/
def bytesOf (text : String) : GoString := text.toUTF8.data.toList

/-- How a call ends: it returns a value to its caller, or it runs into
`log.Fatal(message)`, which logs the message and ends the process with
`os.Exit(1)`; the `return ""` written after `log.Fatal` is never reached. -/
inductive Outcome (α : Type) where
  | returns (value : α)
  | fatal (message : GoString)
deriving DecidableEq, Repr

/-- `func (i FeedCategory) Title() string`: the `switch` compares `i` with the
constants from top to bottom. -/
def FeedCategory.Title (i : FeedCategory) : Outcome GoString :=
  if i = FeedCategoryAll then .returns (bytesOf "総合")
  else if i = FeedCategorySocial then .returns (bytesOf "世の中")
  else if i = FeedCategoryEconomics then .returns (bytesOf "政治と経済")
  else if i = FeedCategoryLife then .returns (bytesOf "暮らし")
  else if i = FeedCategoryKnowledge then .returns (bytesOf "学び")
  else if i = FeedCategoryIt then .returns (bytesOf "テクノロジー")
  else if i = FeedCategoryEntertainment then .returns (bytesOf "エンタメ")
  else if i = FeedCategoryGame then .returns (bytesOf "アニメとゲーム")
  else if i = FeedCategoryFun then .returns (bytesOf "おもしろ")
  else if i = FeedCategoryVideo then .returns (bytesOf "動画")
  else .fatal (bytesOf "Unsupported HatenaCategory")

/-- `func (i FeedCategory) URL() string`. -/
def FeedCategory.URL (i : FeedCategory) : Outcome GoString :=
  if i = FeedCategoryAll then .returns (bytesOf "http://b.hatena.ne.jp/hotentry.rss")
  else if i = FeedCategorySocial then
    .returns (bytesOf "http://b.hatena.ne.jp/hotentry/social.rss")
  else if i = FeedCategoryEconomics then
    .returns (bytesOf "http://b.hatena.ne.jp/hotentry/economics.rss")
  else if i = FeedCategoryLife then
    .returns (bytesOf "http://b.hatena.ne.jp/hotentry/life.rss")
  else if i = FeedCategoryKnowledge then
    .returns (bytesOf "http://b.hatena.ne.jp/hotentry/knowledge.rss")
  else if i = FeedCategoryIt then
    .returns (bytesOf "http://b.hatena.ne.jp/hotentry/it.rss")
  else if i = FeedCategoryEntertainment then
    .returns (bytesOf "http://b.hatena.ne.jp/hotentry/entertainment.rss")
  else if i = FeedCategoryGame then
    .returns (bytesOf "http://b.hatena.ne.jp/hotentry/game.rss")
  else if i = FeedCategoryFun then
    .returns (bytesOf "http://b.hatena.ne.jp/hotentry/fun.rss")
  else if i = FeedCategoryVideo then .returns (bytesOf "http://b.hatena.ne.jp/video.rss")
  else .fatal (bytesOf "Unsupported HatenaCategory")

/-! ## `Get` -/

/-- A Go `error` value, by the text its `Error()` method gives. -/
structure Error where
  text : GoString
deriving DecidableEq, Repr

/-- `type Channel struct`. -/
structure Channel where
  Title : GoString
  Link : GoString
  Description : GoString
deriving DecidableEq, Repr

/-- `type Feed struct`. -/
structure Feed where
  Channel : Channel
  Items : Slice
deriving DecidableEq, Repr

/-- `resp.Body`, an `io.ReadCloser`, as a state: `pending` are the bytes the stream
has still to deliver, `failure` the error that ends it in place of `io.EOF` (if
any), `ended` tells that a `Read` has reported the end (`io.EOF` or the error),
`closed` that `Close` has been called. -/
structure Body where
  pending : GoString
  failure : Option Error
  ended : Bool
  closed : Bool
deriving DecidableEq, Repr

/-- A body as the HTTP client hands it over: nothing read, not closed. -/
def Body.unread (content : GoString) (failure : Option Error) : Body :=
  { pending := content, failure := failure, ended := false, closed := false }

/-- `ioutil.ReadAll(body)`: reads until `io.EOF` or an error; returns the bytes read
and the error (`nil` at `io.EOF`), and leaves the stream at its end. -/
def ioutilReadAll (body : Body) : GoString × Option Error × Body :=
  (body.pending, body.failure, { body with pending := [], ended := true })

/-- `body.Close()`; `Get` defers it and drops what it returns. -/
def Body.Close (body : Body) : Body := { body with closed := true }

/-- `http.Response`, by the three fields `Get` uses. -/
structure Response where
  Status : GoString
  StatusCode : Int
  Body : Body
deriving DecidableEq, Repr

/-- `http.StatusOK`. -/
def StatusOK : Int := 200

/-- A non-nil `*http.Client`, by what its method `Get(url)` answers:
a transport error or a response. -/
abbrev Client := GoString → Except Error Response

/-- What `Get` relies on outside the repository: the answer of the default client
`&http.Client{}`, and `xml.Unmarshal(data, &feed)` on a zero `Feed` (the decoded
feed, or the error). -/
structure World where
  defaultClient : Client
  xmlUnmarshal : GoString → Except Error Feed

/-- `fmt.Errorf("resp.StatusCode != http.StatusOK : %v", resp.Status)`: the verb `%v`
prints a string as it is. -/
def statusError (status : GoString) : Error :=
  { text := bytesOf "resp.StatusCode != http.StatusOK : " ++ status }

/-- The two results of `Get`, `(*Feed, error)` with `none` for `nil`, and the response
body as `Get` leaves it when it returns (`none` when there was no response). -/
structure GetResult where
  feed : Option Feed
  err : Option Error
  body : Option Body
deriving DecidableEq, Repr

/-- `func Get(category FeedCategory, client *http.Client) (*Feed, error)`. The deferred
`resp.Body.Close()` runs at each `return` that follows the `defer` statement. -/
def Get (w : World) (category : FeedCategory) (client : Option Client) :
    Outcome GetResult :=
  let client : Client :=
    match client with
    | none => w.defaultClient
    | some given => given
  match FeedCategory.URL category with
  | .fatal message => .fatal message
  | .returns url =>
    match client url with
    | .error err => .returns { feed := none, err := some err, body := none }
    | .ok resp =>
      if resp.StatusCode ≠ StatusOK then
        .returns { feed := none, err := some (statusError resp.Status),
                   body := some resp.Body.Close }
      else
        match ioutilReadAll resp.Body with
        | (_, some err, body) =>
          .returns { feed := none, err := some err, body := some body.Close }
        | (data, none, body) =>
          match w.xmlUnmarshal data with
          | .error err => .returns { feed := none, err := some err, body := some body.Close }
          | .ok feed => .returns { feed := some feed, err := none, body := some body.Close }

/-! ## Filtering into a new sequence -/

/-- The out-of-place filter: go through the sequence once and collect the items
that are not rejected in a new sequence, in the order met. -/
def pureFilter (reject : Item → Bool) : List Item → List Item
  | [] => []
  | item :: rest =>
    if reject item then pureFilter reject rest else item :: pureFilter reject rest

/-! ## Sample data -/

/-- An item with the given bookmark count and all other fields zero. -/
def itemWithCount (n : Int) : Item :=
  { Title := [], Link := [], Description := [], Content := [],
    Date := { wall := 0, ext := 0, loc := 0 }, Subject := [], BookmarkCount := n }

/-- An item with the given title, link and bookmark count. -/
def itemOf (title link : GoString) (n : Int) : Item :=
  { Title := title, Link := link, Description := [], Content := [],
    Date := { wall := 0, ext := 0, loc := 0 }, Subject := [], BookmarkCount := n }


/-- A feed with an empty channel and no items. -/
def emptyFeed : Feed :=
  { Channel := { Title := [], Link := [], Description := [] },
    Items := { elems := [], spare := [] } }

/-- A world in which the default client answers every request with status `404` and a
body of six bytes, and in which every body decodes. -/
def notFoundWorld : World :=
  { defaultClient := fun _ =>
      .ok { Status := bytesOf "404 Not Found", StatusCode := 404,
            Body := Body.unread (bytesOf "<rss/>") none },
    xmlUnmarshal := fun _ => .ok emptyFeed }

/-- A world in which the default client answers every request with status `200` and a
body of six bytes, and in which every body decodes to the empty feed. -/
def okWorld : World :=
  { defaultClient := fun _ =>
      .ok { Status := bytesOf "200 OK", StatusCode := 200,
            Body := Body.unread (bytesOf "<rss/>") none },
    xmlUnmarshal := fun _ => .ok emptyFeed }

/-! ## The in-place loop of `Filter` -/

/-- An `append` below capacity overwrites the cell just behind the kept items. -/
theorem FilterState.append_shared (K E U : List Item) (d x : Item) :
    FilterState.append { backing := K ++ (d :: (E ++ U)), dest := .shared K.length } x =
      { backing := (K ++ [x]) ++ (E ++ U), dest := .shared (K ++ [x]).length } := by
  simp [FilterState.append]

/-- Loop invariant of `Filter`: the backing array is `K ++ D ++ R ++ T`, where `K`
holds the items kept so far, `D` cells that were read already, `R` the elements
still to be read and `T` the cells behind the slice. -/
theorem Filter.loop_shared (reject : Item → Bool) (T : List Item) :
    ∀ (R K D : List Item),
      Filter.loop reject R.length (K.length + D.length)
          { backing := K ++ (D ++ (R ++ T)), dest := .shared K.length } =
        some { backing := K ++ (R.filter (fun x => !reject x) ++
                  ((D ++ R).drop (R.filter (fun x => !reject x)).length ++ T)),
               dest := .shared (K.length + (R.filter (fun x => !reject x)).length) }
  | [], K, D => by simp [Filter.loop]
  | x :: R, K, D => by
    have hread : (K ++ (D ++ (x :: R ++ T)))[K.length + D.length]? = some x := by
      rw [List.getElem?_append_right (by omega)]
      rw [List.getElem?_append_right (by omega)]
      simp
    simp only [List.length_cons, Filter.loop, hread]
    cases hx : reject x
    · -- the item is kept
      simp only [Bool.not_false, if_true, List.filter_cons, hx]
      cases D with
      | nil =>
        have h1 := FilterState.append_shared K [] (R ++ T) x x
        have h2 := Filter.loop_shared reject T R (K ++ [x]) []
        simp only [List.nil_append, List.cons_append, List.length_nil, List.append_assoc,
          List.length_append, List.length_singleton, Nat.add_zero, List.singleton_append,
          List.length_cons, List.drop_succ_cons] at h1 h2 ⊢
        rw [h1, h2]
        simp [Nat.add_assoc, Nat.add_comm]
      | cons d D =>
        have h1 := FilterState.append_shared K (D ++ [x]) (R ++ T) d x
        have h2 := Filter.loop_shared reject T R (K ++ [x]) (D ++ [x])
        simp only [List.nil_append, List.cons_append, List.length_nil, List.append_assoc,
          List.length_append, List.length_singleton, Nat.add_zero, List.singleton_append,
          List.length_cons, List.drop_succ_cons] at h1 h2 ⊢
        rw [h1]
        rw [show K.length + (D.length + 1) + 1 = K.length + 1 + (D.length + 1) by omega, h2]
        simp [Nat.add_assoc, Nat.add_comm]
    · -- the item is rejected
      have h2 := Filter.loop_shared reject T R K (D ++ [x])
      simp only [List.length_append, List.length_singleton, List.append_assoc,
        List.singleton_append] at h2
      simp only [Bool.not_true, List.filter_cons, hx]
      simpa [Nat.add_assoc] using h2

/-- Closed form of `Filter`: it never panics and never reallocates; the new slice
holds the items that are not rejected, in order, and the cells behind it keep what
the backing array held there before. -/
theorem Filter_eq (items : Slice) (reject : Item → Bool) :
    Filter items reject =
      some { elems := items.elems.filter (fun x => !reject x),
             spare := (items.elems ++ items.spare).drop
               (items.elems.filter (fun x => !reject x)).length } := by
  have h := Filter.loop_shared reject items.spare items.elems [] []
  simp only [List.length_nil, Nat.add_zero, List.nil_append, Nat.zero_add] at h
  have hle : (items.elems.filter (fun x => !reject x)).length ≤ items.elems.length :=
    List.length_filter_le _ _
  simp only [Filter, Slice.len, Slice.backing, h, FilterState.result]
  congr 2
  · simp
  · rw [List.drop_append_of_le_length hle]
    simp

/-- Filtering a list that a filter with the same test produced changes nothing. -/
theorem filter_filter_self (p : Item → Bool) (l : List Item) :
    (l.filter p).filter p = l.filter p := by
  rw [List.filter_filter]
  congr 1
  funext a
  simp

/-- A second `Filter` with the same predicate gives back the slice it is given. -/
theorem Filter_twice (items once : Slice) (reject : Item → Bool)
    (h : Filter items reject = some once) : Filter once reject = some once := by
  rw [Filter_eq] at h
  cases h
  rw [Filter_eq]
  simp only [filter_filter_self]
  congr 2
  simp

/-- A `Filter` that rejects no element of the slice gives the slice back. -/
theorem Filter_none_rejected (items : Slice) (reject : Item → Bool)
    (h : ∀ x ∈ items.elems, reject x = false) : Filter items reject = some items := by
  have hf : items.elems.filter (fun x => !reject x) = items.elems := by
    rw [List.filter_eq_self]
    intro a ha
    simp [h a ha]
  rw [Filter_eq, hf]
  simp

/-- The closure of `FilterByTitle` and `FilterByLink` answers true exactly when some
pattern occurs in the field. -/
theorem containsAny_eq_true (field : GoString) (patterns : List GoString) :
    containsAny field patterns = true ↔ ∃ p ∈ patterns, stringsContains field p = true := by
  induction patterns with
  | nil => simp [containsAny]
  | cons p ps ih =>
    by_cases hp : stringsContains field p = true
    · simp [containsAny, hp]
    · simp [containsAny, hp, ih]

/-- `startsWith s p` holds exactly when `p` is an initial segment of `s`. -/
theorem startsWith_iff (s p : GoString) : startsWith s p = true ↔ p <+: s := by
  induction p generalizing s with
  | nil => cases s <;> simp [startsWith]
  | cons d p ih =>
    cases s with
    | nil => simp [startsWith]
    | cons c s =>
      by_cases hcd : c = d
      · subst hcd
        simp [startsWith, ih, List.cons_prefix_cons]
      · have hdc : ¬ d = c := fun h => hcd h.symm
        simp [startsWith, hcd, hdc, List.cons_prefix_cons]

/-- `stringsContains s p` holds exactly when `p` is a contiguous part of `s`. -/
theorem stringsContains_iff (s p : GoString) : stringsContains s p = true ↔ p <:+: s := by
  induction s with
  | nil =>
    simp only [stringsContains, startsWith_iff]
    constructor
    · exact fun h => h.isInfix
    · intro h
      have := List.eq_nil_of_infix_nil h
      subst this
      exact List.prefix_rfl
  | cons c s ih =>
    by_cases hpre : startsWith (c :: s) p = true
    · simp only [stringsContains, hpre, if_true, true_iff]
      exact ((startsWith_iff _ _).1 hpre).isInfix
    · rw [List.infix_cons_iff, ← startsWith_iff, ← ih]
      simp [stringsContains, hpre]

/-! ## `sort.Sort` through the methods of `hatenaItems` -/

/-- An index expression returns a value exactly when the index is in range. -/
theorem index_eq_some {α : Type} (s : List α) (i : Int) (a : α) :
    index s i = some a ↔ 0 ≤ i ∧ s[i.toNat]? = some a := by
  unfold index
  constructor
  · intro hh
    split at hh
    · simp at hh
    · exact ⟨by omega, hh⟩
  · rintro ⟨h0, hh⟩
    rw [if_neg (by omega)]
    exact hh

/-- Indexing in range does not panic. -/
theorem index_of_range {α : Type} (s : List α) (i : Int) (h0 : 0 ≤ i) (h1 : i < s.length) :
    ∃ a, index s i = some a := by
  have hlt : i.toNat < s.length := by omega
  refine ⟨s[i.toNat], ?_⟩
  rw [index_eq_some]
  exact ⟨h0, List.getElem?_eq_getElem hlt⟩

/-- Indexing commutes with mapping a function over the slice. -/
theorem index_map {α β : Type} (f : α → β) (s : List α) (i : Int) :
    index (s.map f) i = (index s i).map f := by
  unfold index
  by_cases h : i < 0
  · simp [h]
  · simp [h, List.getElem?_map]

/-- Putting the value of cell `j` in front and a new value into cell `j` permutes
the list with the new value in front. -/
theorem cons_set_perm {α : Type} (x b : α) :
    ∀ (t : List α) (j : Nat), t[j]? = some b → (b :: t.set j x).Perm (x :: t)
  | [], _, h => by simp at h
  | y :: t, 0, h => by
    simp at h
    subst h
    exact List.Perm.swap _ _ _
  | y :: t, j + 1, h => by
    simp at h
    simp only [List.set_cons_succ]
    exact (List.Perm.swap y b _).trans
      (((cons_set_perm x b t j h).cons y).trans (List.Perm.swap x y t))

/-- Exchanging the contents of two cells permutes the list. -/
theorem set_set_swap_perm {α : Type} (a b : α) :
    ∀ (l : List α) (i j : Nat), l[i]? = some a → l[j]? = some b →
      ((l.set i b).set j a).Perm l
  | [], _, _, h, _ => by simp at h
  | x :: t, 0, 0, hi, hj => by
    simp at hi hj
    subst hi
    simp
  | x :: t, 0, j + 1, hi, hj => by
    simp at hi hj
    subst hi
    simp only [List.set_cons_zero, List.set_cons_succ]
    exact cons_set_perm x b t j hj
  | x :: t, i + 1, 0, hi, hj => by
    simp at hi hj
    subst hj
    simp only [List.set_cons_zero, List.set_cons_succ]
    exact cons_set_perm x a t i hi
  | x :: t, i + 1, j + 1, hi, hj => by
    simp at hi hj
    simp only [List.set_cons_succ]
    exact (set_set_swap_perm a b t i j hi hj).cons x

/-- `hatenaItems.Swap` permutes the elements and leaves the spare cells alone. -/
theorem hatenaItems.Swap_perm (items out : Slice) (i j : Int)
    (h : hatenaItems.Swap items i j = some out) :
    out.elems.Perm items.elems ∧ out.spare = items.spare := by
  unfold hatenaItems.Swap at h
  cases hj : index items.elems j with
  | none => simp [hj] at h
  | some atJ =>
    cases hi : index items.elems i with
    | none => simp [hj, hi] at h
    | some atI =>
      simp only [hj, hi, Option.some.injEq] at h
      subst h
      rw [index_eq_some] at hi hj
      exact ⟨set_set_swap_perm atI atJ items.elems i.toNat j.toNat hi.2 hj.2, rfl⟩

/-- `hatenaItems.Swap` does not panic on indices in range. -/
theorem hatenaItems.Swap_of_range (items : Slice) (i j : Int)
    (hi : 0 ≤ i ∧ i < hatenaItems.Len items) (hj : 0 ≤ j ∧ j < hatenaItems.Len items) :
    ∃ out, hatenaItems.Swap items i j = some out := by
  obtain ⟨a, ha⟩ := index_of_range items.elems i hi.1 hi.2
  obtain ⟨b, hb⟩ := index_of_range items.elems j hj.1 hj.2
  simp [hatenaItems.Swap, ha, hb]

/-- `hatenaItems.Less` does not panic on indices in range. -/
theorem hatenaItems.Less_of_range (items : Slice) (i j : Int)
    (hi : 0 ≤ i ∧ i < hatenaItems.Len items) (hj : 0 ≤ j ∧ j < hatenaItems.Len items) :
    ∃ r, hatenaItems.Less items i j = some r := by
  obtain ⟨a, ha⟩ := index_of_range items.elems i hi.1 hi.2
  obtain ⟨b, hb⟩ := index_of_range items.elems j hj.1 hj.2
  simp [hatenaItems.Less, ha, hb]

/-- The `Swap` of the method set is `hatenaItems.Swap`. -/
theorem hatenaItems.methods_Swap : hatenaItems.methods.Swap = hatenaItems.Swap := rfl

/-- The `Less` of the method set is `hatenaItems.Less`. -/
theorem hatenaItems.methods_Less : hatenaItems.methods.Less = hatenaItems.Less := rfl

/-- Whatever the strategy, a run that returns has only permuted the elements. -/
theorem SortProg.run_perm :
    ∀ (p : SortProg) (items out : Slice), p.run hatenaItems.methods items = some out →
      out.elems.Perm items.elems ∧ out.spare = items.spare
  | .done, items, out, h => by
    simp only [SortProg.run, Option.some.injEq] at h
    subst h
    exact ⟨List.Perm.refl _, rfl⟩
  | .swap i j next, items, out, h => by
    simp only [SortProg.run, hatenaItems.methods_Swap, hatenaItems.methods_Less] at h
    cases hs : hatenaItems.Swap items i j with
    | none => simp [hs] at h
    | some mid =>
      simp only [hs] at h
      have h1 := hatenaItems.Swap_perm items mid i j hs
      have h2 := SortProg.run_perm next mid out h
      exact ⟨h2.1.trans h1.1, h2.2.trans h1.2⟩
  | .less i j yes no, items, out, h => by
    simp only [SortProg.run, hatenaItems.methods_Swap, hatenaItems.methods_Less] at h
    cases hl : hatenaItems.Less items i j with
    | none => simp [hl] at h
    | some r =>
      cases r with
      | true =>
        simp only [hl] at h
        exact SortProg.run_perm yes items out h
      | false =>
        simp only [hl] at h
        exact SortProg.run_perm no items out h

/-- A strategy that keeps its indices in range runs to the end. -/
theorem SortProg.run_of_inRange :
    ∀ (p : SortProg) (items : Slice), p.inRange (hatenaItems.Len items) = true →
      ∃ out, p.run hatenaItems.methods items = some out
  | .done, items, _ => ⟨items, rfl⟩
  | .swap i j next, items, h => by
    simp only [SortProg.inRange, Bool.and_eq_true, decide_eq_true_eq] at h
    obtain ⟨mid, hs⟩ := hatenaItems.Swap_of_range items i j ⟨h.1.1, h.1.2.1⟩ h.1.2.2
    have hlen : hatenaItems.Len mid = hatenaItems.Len items := by
      have := (hatenaItems.Swap_perm items mid i j hs).1.length_eq
      simp [hatenaItems.Len, this]
    obtain ⟨out, ho⟩ := SortProg.run_of_inRange next mid (by rw [hlen]; exact h.2)
    exact ⟨out, by simp [SortProg.run, hatenaItems.methods_Swap, hs, ho]⟩
  | .less i j yes no, items, h => by
    simp only [SortProg.inRange, Bool.and_eq_true, decide_eq_true_eq] at h
    obtain ⟨r, hl⟩ := hatenaItems.Less_of_range items i j ⟨h.1.1, h.1.2.1⟩ h.1.2.2
    cases r with
    | true =>
      obtain ⟨out, ho⟩ := SortProg.run_of_inRange yes items h.2.1
      exact ⟨out, by simp [SortProg.run, hatenaItems.methods_Less, hl, ho]⟩
    | false =>
      obtain ⟨out, ho⟩ := SortProg.run_of_inRange no items h.2.2
      exact ⟨out, by simp [SortProg.run, hatenaItems.methods_Less, hl, ho]⟩

/-- `hatenaItems.Less` answers as `sort.IntSlice` does on the bookmark counts. -/
theorem hatenaItems.Less_counts (items : Slice) (i j : Int) :
    hatenaItems.Less items i j = IntSlice.Less (counts items) i j := by
  simp only [hatenaItems.Less, IntSlice, counts, index_map]
  cases index items.elems i <;> cases index items.elems j <;> rfl

/-- `hatenaItems.Swap` moves the bookmark counts as `sort.IntSlice` moves integers. -/
theorem hatenaItems.Swap_counts (items : Slice) (i j : Int) :
    (hatenaItems.Swap items i j).map counts = IntSlice.Swap (counts items) i j := by
  simp only [hatenaItems.Swap, IntSlice, counts, index_map]
  cases index items.elems j <;> cases index items.elems i <;> simp [List.map_set, counts]

/-- Any strategy moves the bookmark counts of the items exactly as it moves the
integers of an `IntSlice` holding those counts. -/
theorem SortProg.run_counts :
    ∀ (p : SortProg) (items : Slice),
      (p.run hatenaItems.methods items).map counts = p.run IntSlice (counts items)
  | .done, items => rfl
  | .swap i j next, items => by
    have hs := hatenaItems.Swap_counts items i j
    simp only [SortProg.run, hatenaItems.methods_Swap, hatenaItems.methods_Less]
    cases h : hatenaItems.Swap items i j with
    | none =>
      rw [h] at hs
      simp only [Option.map_none'] at hs
      simp [← hs]
    | some mid =>
      rw [h] at hs
      simp only [Option.map_some'] at hs
      simp only [← hs]
      exact SortProg.run_counts next mid
  | .less i j yes no, items => by
    have hl := hatenaItems.Less_counts items i j
    simp only [SortProg.run, hatenaItems.methods_Swap, hatenaItems.methods_Less]
    rw [hl]
    cases IntSlice.Less (counts items) i j with
    | none => rfl
    | some r =>
      cases r with
      | true => exact SortProg.run_counts yes items
      | false => exact SortProg.run_counts no items

/-- In a chain, neighbouring elements are related. -/
theorem chain_adjacent {α : Type} {R : α → α → Prop} :
    ∀ (l : List α), l.Chain' R → ∀ (i : Nat) (a b : α),
      l[i]? = some a → l[i + 1]? = some b → R a b
  | [], _, _, _, _, h, _ => by simp at h
  | [_], _, _, _, _, _, h => by simp at h
  | x :: y :: t, hc, 0, a, b, ha, hb => by
    simp at ha hb
    subst ha hb
    exact (List.chain'_cons.1 hc).1
  | x :: y :: t, hc, i + 1, a, b, ha, hb => by
    rw [List.getElem?_cons_succ] at ha hb
    exact chain_adjacent (y :: t) (List.chain'_cons.1 hc).2 i a b ha hb

/-! ## The filter engine -/

/-- C1. `Filter` returns, and the new `*items` is exactly the subsequence of the old
one made of the items for which `reject` is false, in their original order: an
item is kept iff `reject` is false on it, and nothing is added, duplicated or
reordered. -/
theorem Filter_keeps_unrejected (items : Slice) (reject : Item → Bool) :
    ∃ out, Filter items reject = some out ∧
      out.elems = items.elems.filter (fun item => !reject item) ∧
      out.elems.Sublist items.elems ∧
      (∀ item, item ∈ out.elems ↔ item ∈ items.elems ∧ reject item = false) ∧
      (∀ item, reject item = false → out.elems.count item = items.elems.count item) := by
  refine ⟨_, Filter_eq items reject, rfl, List.filter_sublist _, ?_, ?_⟩
  · intro item
    simp [List.mem_filter]
  · intro item hitem
    exact List.count_filter (by simp [hitem])

/-- C2. After `FilterByBookmarkCount(&S, T)` every remaining item has
`BookmarkCount >= T`, and every item of the original `S` with `BookmarkCount >= T`
is still there: the result is the original sequence restricted to the items with
`T <= BookmarkCount`, so it drops an item iff its count is strictly below `T`. -/
theorem FilterByBookmarkCount_threshold (items : Slice) (threshold : Int) :
    ∃ out, FilterByBookmarkCount items threshold = some out ∧
      (∀ item ∈ out.elems, threshold ≤ item.BookmarkCount) ∧
      (∀ item ∈ items.elems, threshold ≤ item.BookmarkCount → item ∈ out.elems) ∧
      (∀ item ∈ items.elems, item.BookmarkCount < threshold → item ∉ out.elems) ∧
      out.elems = items.elems.filter (fun item => decide (threshold ≤ item.BookmarkCount)) := by
  have hfun : (fun item : Item => !decide (item.BookmarkCount < threshold)) =
      (fun item : Item => decide (threshold ≤ item.BookmarkCount)) := by
    funext item
    rw [Bool.eq_iff_iff]
    simp
  refine ⟨_, Filter_eq items _, ?_, ?_, ?_, ?_⟩
  · intro item hitem
    simp only [hfun, List.mem_filter, decide_eq_true_eq] at hitem
    exact hitem.2
  · intro item hitem hle
    simp only [hfun, List.mem_filter, decide_eq_true_eq]
    exact ⟨hitem, hle⟩
  · intro item _ hlt hmem
    simp only [hfun, List.mem_filter, decide_eq_true_eq] at hmem
    omega
  · simp only [hfun]

/-- C3. After `FilterByTitle(&S, P...)` no remaining item's `Title` contains a string
of `P`; an item of the original `S` is dropped iff its `Title` contains at least one
string of `P`; the kept items keep their relative order. -/
theorem FilterByTitle_removes_matching (items : Slice) (patterns : List GoString) :
    ∃ out, FilterByTitle items patterns = some out ∧
      (∀ item ∈ out.elems, ∀ p ∈ patterns, stringsContains item.Title p = false) ∧
      (∀ item ∈ items.elems,
        (item ∉ out.elems ↔ ∃ p ∈ patterns, stringsContains item.Title p = true)) ∧
      out.elems = items.elems.filter
        (fun item => decide (¬ ∃ p ∈ patterns, stringsContains item.Title p = true)) ∧
      out.elems.Sublist items.elems := by
  have hfun : (fun item : Item => !containsAny item.Title patterns) =
      (fun item : Item => decide (¬ ∃ p ∈ patterns, stringsContains item.Title p = true)) := by
    funext item
    rw [Bool.eq_iff_iff]
    simp [← containsAny_eq_true]
  refine ⟨_, Filter_eq items _, ?_, ?_, ?_, List.filter_sublist _⟩
  · intro item hitem p hp
    simp only [hfun, List.mem_filter, decide_eq_true_eq] at hitem
    cases hc : stringsContains item.Title p with
    | false => rfl
    | true => exact absurd ⟨p, hp, hc⟩ hitem.2
  · intro item hitem
    simp only [hfun, List.mem_filter, decide_eq_true_eq]
    constructor
    · intro hnot
      by_contra hno
      exact hnot ⟨hitem, hno⟩
    · intro hex hmem
      exact hmem.2 hex
  · simp only [hfun]

/-- C4. After `FilterByLink(&S, P...)` no remaining item's `Link` contains a string of
`P`; an item of the original `S` is dropped iff its `Link` contains at least one
string of `P`; the kept items keep their relative order; and the decision reads
the `Link` field only: rewriting the items in any way that preserves each `Link`
(whatever happens to `Title` and the other fields) keeps the same positions. -/
theorem FilterByLink_removes_matching (items : Slice) (patterns : List GoString) :
    ∃ out, FilterByLink items patterns = some out ∧
      (∀ item ∈ out.elems, ∀ p ∈ patterns, stringsContains item.Link p = false) ∧
      (∀ item ∈ items.elems,
        (item ∉ out.elems ↔ ∃ p ∈ patterns, stringsContains item.Link p = true)) ∧
      out.elems = items.elems.filter
        (fun item => decide (¬ ∃ p ∈ patterns, stringsContains item.Link p = true)) ∧
      out.elems.Sublist items.elems ∧
      (∀ f : Item → Item, (∀ item, (f item).Link = item.Link) →
        ∃ out', FilterByLink { elems := items.elems.map f, spare := items.spare } patterns =
            some out' ∧ out'.elems = out.elems.map f) := by
  have hfun : (fun item : Item => !containsAny item.Link patterns) =
      (fun item : Item => decide (¬ ∃ p ∈ patterns, stringsContains item.Link p = true)) := by
    funext item
    rw [Bool.eq_iff_iff]
    simp [← containsAny_eq_true]
  refine ⟨_, Filter_eq items _, ?_, ?_, ?_, List.filter_sublist _, ?_⟩
  · intro item hitem p hp
    simp only [hfun, List.mem_filter, decide_eq_true_eq] at hitem
    cases hc : stringsContains item.Link p with
    | false => rfl
    | true => exact absurd ⟨p, hp, hc⟩ hitem.2
  · intro item hitem
    simp only [hfun, List.mem_filter, decide_eq_true_eq]
    constructor
    · intro hnot
      by_contra hno
      exact hnot ⟨hitem, hno⟩
    · intro hex hmem
      exact hmem.2 hex
  · simp only [hfun]
  · intro f hf
    refine ⟨_, Filter_eq _ _, ?_⟩
    simp only [List.filter_map]
    congr 2
    funext item
    simp [hf item]

/-! ## The sorter -/

/-- C5. After `SortByBookmarkCount(S)` the bookmark counts are non-decreasing: for
every adjacent pair of positions `(i, i+1)`, `S[i].BookmarkCount <=
S[i+1].BookmarkCount`. `sort.Sort` is the standard library's; whatever its
strategy, if that strategy puts the plain integer slice of the counts of `S` into
increasing order, then run through `hatenaItems` it returns and leaves the items
of `S` in non-decreasing order of `BookmarkCount`. -/
theorem SortByBookmarkCount_nondecreasing (strategy : SortStrategy) (items : Slice)
    (sorted : List Int)
    (hsort : sortSort strategy IntSlice (counts items) = some sorted)
    (hasc : sorted.Chain' (fun a b => a ≤ b)) :
    ∃ out, SortByBookmarkCount strategy items = some out ∧
      ∀ (i : Nat) (a b : Item), out.elems[i]? = some a → out.elems[i + 1]? = some b →
        a.BookmarkCount ≤ b.BookmarkCount := by
  have hlen : hatenaItems.methods.Len items = IntSlice.Len (counts items) := by
    simp [hatenaItems.methods, hatenaItems.Len, IntSlice, counts]
  have hsim := SortProg.run_counts (strategy (hatenaItems.methods.Len items)) items
  unfold sortSort at hsort
  rw [hlen, hsort] at hsim
  cases hrun : (strategy (IntSlice.Len (counts items))).run hatenaItems.methods items with
  | none => simp [hrun] at hsim
  | some out =>
    rw [hrun] at hsim
    simp only [Option.map_some', Option.some.injEq] at hsim
    refine ⟨out, ?_, ?_⟩
    · unfold SortByBookmarkCount sortSort
      rw [hlen]
      exact hrun
    · intro i a b ha hb
      have hchain : (counts out).Chain' (fun a b => a ≤ b) := by
        rw [hsim]
        exact hasc
      apply chain_adjacent (counts out) hchain i
      · simp [counts, List.getElem?_map, ha]
      · simp [counts, List.getElem?_map, hb]

/-- On the counts `[300, 120, 50]` the library's insertion sort meets the hypotheses
of `SortByBookmarkCount_nondecreasing`, and the items come out in non-decreasing
order. -/
theorem SortByBookmarkCount_nondecreasing_witness :
    sortSort insertionSort IntSlice
        (counts { elems := [itemWithCount 300, itemWithCount 120, itemWithCount 50],
                  spare := [] }) = some [50, 120, 300] ∧
      List.Chain' (fun a b : Int => a ≤ b) [50, 120, 300] ∧
      ∃ out, SortByBookmarkCount insertionSort
          { elems := [itemWithCount 300, itemWithCount 120, itemWithCount 50],
            spare := [] } = some out ∧
        ∀ (i : Nat) (a b : Item), out.elems[i]? = some a → out.elems[i + 1]? = some b →
          a.BookmarkCount ≤ b.BookmarkCount :=
  ⟨by decide, by simp,
    SortByBookmarkCount_nondecreasing insertionSort
      { elems := [itemWithCount 300, itemWithCount 120, itemWithCount 50], spare := [] }
      [50, 120, 300] (by decide) (by simp)⟩

/-- C6. `SortByBookmarkCount(S)` only reorders. `sort.Sort` reaches the data through
`Len`, `Less` and `Swap` alone; whatever its strategy, as long as the indices it
passes lie in `0 .. len(S)-1` the call returns and the result is a permutation of
the original `S` as whole `Item` records, of the same length, and the cells behind
the slice are untouched. -/
theorem SortByBookmarkCount_permutation (strategy : SortStrategy) (items : Slice)
    (hrange : (strategy (hatenaItems.Len items)).inRange (hatenaItems.Len items) = true) :
    ∃ out, SortByBookmarkCount strategy items = some out ∧
      out.elems.Perm items.elems ∧
      out.elems.length = items.elems.length ∧
      (∀ item, out.elems.count item = items.elems.count item) ∧
      out.spare = items.spare := by
  obtain ⟨out, hout⟩ := SortProg.run_of_inRange _ items hrange
  have hperm := SortProg.run_perm _ items out hout
  exact ⟨out, hout, hperm.1, hperm.1.length_eq, fun item => hperm.1.count_eq item, hperm.2⟩

/-- The library's insertion sort keeps its indices in range on a slice of three
items with distinct titles, and `SortByBookmarkCount` permutes them. -/
theorem SortByBookmarkCount_permutation_witness :
    (insertionSort (hatenaItems.Len
        { elems := [itemOf [97] [120] 300, itemOf [98] [121] 120, itemOf [99] [122] 120],
          spare := [itemWithCount 7] })).inRange
      (hatenaItems.Len
        { elems := [itemOf [97] [120] 300, itemOf [98] [121] 120, itemOf [99] [122] 120],
          spare := [itemWithCount 7] }) = true ∧
      ∃ out, SortByBookmarkCount insertionSort
          { elems := [itemOf [97] [120] 300, itemOf [98] [121] 120, itemOf [99] [122] 120],
            spare := [itemWithCount 7] } = some out ∧
        out.elems.Perm [itemOf [97] [120] 300, itemOf [98] [121] 120, itemOf [99] [122] 120] ∧
        out.elems.length = 3 ∧
        (∀ item, out.elems.count item =
          [itemOf [97] [120] 300, itemOf [98] [121] 120, itemOf [99] [122] 120].count item) ∧
        out.spare = [itemWithCount 7] :=
  ⟨by decide,
    SortByBookmarkCount_permutation insertionSort
      { elems := [itemOf [97] [120] 300, itemOf [98] [121] 120, itemOf [99] [122] 120],
        spare := [itemWithCount 7] } (by decide)⟩

/-! ## Idempotence and no-op cases of the filters -/

/-- C7. Filtering is idempotent: applying `Filter` with the same predicate a second
time gives the slice the first application gave; likewise `FilterByBookmarkCount`
with a fixed threshold and `FilterByTitle`, `FilterByLink` with a fixed pattern
list. -/
theorem Filter_idempotent (items : Slice) (reject : Item → Bool) (threshold : Int)
    (patterns : List GoString) :
    (∃ once, Filter items reject = some once ∧ Filter once reject = some once) ∧
    (∃ once, FilterByBookmarkCount items threshold = some once ∧
      FilterByBookmarkCount once threshold = some once) ∧
    (∃ once, FilterByTitle items patterns = some once ∧
      FilterByTitle once patterns = some once) ∧
    (∃ once, FilterByLink items patterns = some once ∧
      FilterByLink once patterns = some once) :=
  ⟨⟨_, Filter_eq items _, Filter_twice items _ _ (Filter_eq items _)⟩,
   ⟨_, Filter_eq items _, Filter_twice items _ _ (Filter_eq items _)⟩,
   ⟨_, Filter_eq items _, Filter_twice items _ _ (Filter_eq items _)⟩,
   ⟨_, Filter_eq items _, Filter_twice items _ _ (Filter_eq items _)⟩⟩

/-- C8, as the spec states it, fails: `BookmarkCount` is a signed `int`, and
`FilterByBookmarkCount(&S, 0)` drops the item whose count is `-1`. -/
theorem FilterByBookmarkCount_zero_drops_negative :
    FilterByBookmarkCount { elems := [itemWithCount (-1)], spare := [] } 0 =
        some { elems := [], spare := [itemWithCount (-1)] } ∧
      FilterByBookmarkCount { elems := [itemWithCount (-1)], spare := [] } 0 ≠
        some { elems := [itemWithCount (-1)], spare := [] } := by
  decide

/-- C8, amended. For every item sequence `S` in which every `BookmarkCount` is
`>= 0`, `FilterByBookmarkCount(&S, 0)` removes nothing: the slice after the call
equals the slice before it. -/
theorem FilterByBookmarkCount_zero_of_nonneg (items : Slice)
    (hnonneg : ∀ item ∈ items.elems, 0 ≤ item.BookmarkCount) :
    FilterByBookmarkCount items 0 = some items := by
  apply Filter_none_rejected
  intro item hitem
  have := hnonneg item hitem
  simp
  omega

/-- A slice with counts `0` and `5` (and a negative count only behind its length) is
left as it is by `FilterByBookmarkCount(&S, 0)`. -/
theorem FilterByBookmarkCount_zero_of_nonneg_witness :
    (∀ item ∈ [itemWithCount 0, itemWithCount 5], 0 ≤ item.BookmarkCount) ∧
      FilterByBookmarkCount
          { elems := [itemWithCount 0, itemWithCount 5], spare := [itemWithCount (-3)] } 0 =
        some { elems := [itemWithCount 0, itemWithCount 5], spare := [itemWithCount (-3)] } :=
  ⟨by decide,
    FilterByBookmarkCount_zero_of_nonneg
      { elems := [itemWithCount 0, itemWithCount 5], spare := [itemWithCount (-3)] }
      (by decide)⟩

/-- C9. `FilterByTitle(&S)` and `FilterByLink(&S)` with an empty pattern list leave `S`
unchanged: same items, same order, same length. -/
theorem FilterByTitle_FilterByLink_no_patterns (items : Slice) :
    FilterByTitle items [] = some items ∧ FilterByLink items [] = some items :=
  ⟨Filter_none_rejected items _ (fun _ _ => rfl),
   Filter_none_rejected items _ (fun _ _ => rfl)⟩

/-! ## The category registry -/

/-- C10. `GetFeedCategoryList` returns the ten categories in declaration order: All,
Social, Economics, Life, Knowledge, It, Entertainment, Game, Fun, Video, that is
the values `0` to `9` in increasing order, pairwise distinct. -/
theorem GetFeedCategoryList_declaration_order :
    GetFeedCategoryList =
        [FeedCategoryAll, FeedCategorySocial, FeedCategoryEconomics, FeedCategoryLife,
         FeedCategoryKnowledge, FeedCategoryIt, FeedCategoryEntertainment, FeedCategoryGame,
         FeedCategoryFun, FeedCategoryVideo] ∧
      GetFeedCategoryList = [0, 1, 2, 3, 4, 5, 6, 7, 8, 9] ∧
      GetFeedCategoryList.length = 10 ∧
      GetFeedCategoryList.Nodup ∧
      GetFeedCategoryList.Chain' (fun a b => a < b) := by
  refine ⟨by decide, by decide, by decide, by decide, ?_⟩
  simp [GetFeedCategoryList, FeedCategoryAll, FeedCategorySocial, FeedCategoryEconomics,
    FeedCategoryLife, FeedCategoryKnowledge, FeedCategoryIt, FeedCategoryEntertainment,
    FeedCategoryGame, FeedCategoryFun, FeedCategoryVideo]

/-! ## Names and URLs of the categories -/

/-- C11. For each of the ten categories `URL()` returns exactly the URL of the
category table: All, Social, Economics, Life, Knowledge, IT, Entertainment, Game,
Fun under `http://b.hatena.ne.jp/hotentry...` and Video at
`http://b.hatena.ne.jp/video.rss`, byte for byte. -/
theorem URL_table :
    FeedCategory.URL FeedCategoryAll =
        .returns (bytesOf "http://b.hatena.ne.jp/hotentry.rss") ∧
      FeedCategory.URL FeedCategorySocial =
        .returns (bytesOf "http://b.hatena.ne.jp/hotentry/social.rss") ∧
      FeedCategory.URL FeedCategoryEconomics =
        .returns (bytesOf "http://b.hatena.ne.jp/hotentry/economics.rss") ∧
      FeedCategory.URL FeedCategoryLife =
        .returns (bytesOf "http://b.hatena.ne.jp/hotentry/life.rss") ∧
      FeedCategory.URL FeedCategoryKnowledge =
        .returns (bytesOf "http://b.hatena.ne.jp/hotentry/knowledge.rss") ∧
      FeedCategory.URL FeedCategoryIt =
        .returns (bytesOf "http://b.hatena.ne.jp/hotentry/it.rss") ∧
      FeedCategory.URL FeedCategoryEntertainment =
        .returns (bytesOf "http://b.hatena.ne.jp/hotentry/entertainment.rss") ∧
      FeedCategory.URL FeedCategoryGame =
        .returns (bytesOf "http://b.hatena.ne.jp/hotentry/game.rss") ∧
      FeedCategory.URL FeedCategoryFun =
        .returns (bytesOf "http://b.hatena.ne.jp/hotentry/fun.rss") ∧
      FeedCategory.URL FeedCategoryVideo =
        .returns (bytesOf "http://b.hatena.ne.jp/video.rss") :=
  ⟨rfl, rfl, rfl, rfl, rfl, rfl, rfl, rfl, rfl, rfl⟩

/-- The members of `GetFeedCategoryList` are the integers `0` to `9`. -/
theorem mem_GetFeedCategoryList (i : Int) :
    i ∈ GetFeedCategoryList ↔ 0 ≤ i ∧ i ≤ 9 := by
  constructor
  · intro h
    have hall : ∀ c ∈ GetFeedCategoryList, (0 : Int) ≤ c ∧ c ≤ 9 := by decide
    exact hall i h
  · rintro ⟨h0, h9⟩
    interval_cases i <;> decide

/-- Outside `0 .. 9` the `switch` of `Title` falls through to `default`. -/
theorem Title_outside (i : Int) (hr : ¬ (0 ≤ i ∧ i ≤ 9)) :
    FeedCategory.Title i = .fatal (bytesOf "Unsupported HatenaCategory") := by
  have hne : ∀ c : Int, (0 ≤ c ∧ c ≤ 9) → ¬ i = c := fun c hc h => hr (h ▸ hc)
  unfold FeedCategory.Title
  rw [if_neg (hne FeedCategoryAll (by decide)), if_neg (hne FeedCategorySocial (by decide)),
    if_neg (hne FeedCategoryEconomics (by decide)), if_neg (hne FeedCategoryLife (by decide)),
    if_neg (hne FeedCategoryKnowledge (by decide)), if_neg (hne FeedCategoryIt (by decide)),
    if_neg (hne FeedCategoryEntertainment (by decide)),
    if_neg (hne FeedCategoryGame (by decide)), if_neg (hne FeedCategoryFun (by decide)),
    if_neg (hne FeedCategoryVideo (by decide))]

/-- Outside `0 .. 9` the `switch` of `URL` falls through to `default`. -/
theorem URL_outside (i : Int) (hr : ¬ (0 ≤ i ∧ i ≤ 9)) :
    FeedCategory.URL i = .fatal (bytesOf "Unsupported HatenaCategory") := by
  have hne : ∀ c : Int, (0 ≤ c ∧ c ≤ 9) → ¬ i = c := fun c hc h => hr (h ▸ hc)
  unfold FeedCategory.URL
  rw [if_neg (hne FeedCategoryAll (by decide)), if_neg (hne FeedCategorySocial (by decide)),
    if_neg (hne FeedCategoryEconomics (by decide)), if_neg (hne FeedCategoryLife (by decide)),
    if_neg (hne FeedCategoryKnowledge (by decide)), if_neg (hne FeedCategoryIt (by decide)),
    if_neg (hne FeedCategoryEntertainment (by decide)),
    if_neg (hne FeedCategoryGame (by decide)), if_neg (hne FeedCategoryFun (by decide)),
    if_neg (hne FeedCategoryVideo (by decide))]

/-- Inside `0 .. 9` both `Title` and `URL` return. -/
theorem Title_URL_inside (i : Int) (h0 : 0 ≤ i) (h9 : i ≤ 9) :
    ∃ title url, FeedCategory.Title i = .returns title ∧ FeedCategory.URL i = .returns url := by
  interval_cases i
  all_goals exact ⟨_, _, rfl, rfl⟩

/-- C12. For every category `C` that `GetFeedCategoryList` returns, `Title(C)` and
`URL(C)` return to the caller (the `default` branch with `log.Fatal` is not
reached), and each returns a non-empty string. -/
theorem Title_URL_return_nonempty (c : FeedCategory) (hc : c ∈ GetFeedCategoryList) :
    ∃ title url, FeedCategory.Title c = .returns title ∧ FeedCategory.URL c = .returns url ∧
      title ≠ [] ∧ url ≠ [] := by
  rw [mem_GetFeedCategoryList] at hc
  obtain ⟨h0, h9⟩ := hc
  interval_cases c
  all_goals exact ⟨_, _, rfl, rfl, by decide, by decide⟩

/-- The Video category, a member of the list, has a title and a URL. -/
theorem Title_URL_return_nonempty_witness :
    FeedCategoryVideo ∈ GetFeedCategoryList ∧
      ∃ title url, FeedCategory.Title FeedCategoryVideo = .returns title ∧
        FeedCategory.URL FeedCategoryVideo = .returns url ∧ title ≠ [] ∧ url ≠ [] :=
  ⟨by decide, Title_URL_return_nonempty FeedCategoryVideo (by decide)⟩

/-- C13. `Title` and `URL` end in `log.Fatal` instead of returning a string exactly
when the `FeedCategory` value is none of the ten constants: for every integer
outside `0 .. 9`, such as `-1` and `10`, and for no value inside. -/
theorem Title_URL_fatal_iff (i : FeedCategory) :
    ((∃ message, FeedCategory.Title i = .fatal message) ↔ ¬ (0 ≤ i ∧ i ≤ 9)) ∧
      ((∃ message, FeedCategory.URL i = .fatal message) ↔ ¬ (0 ≤ i ∧ i ≤ 9)) ∧
      ((∃ title, FeedCategory.Title i = .returns title) ↔ i ∈ GetFeedCategoryList) ∧
      ((∃ url, FeedCategory.URL i = .returns url) ↔ i ∈ GetFeedCategoryList) ∧
      FeedCategory.Title (-1) = .fatal (bytesOf "Unsupported HatenaCategory") ∧
      FeedCategory.URL (-1) = .fatal (bytesOf "Unsupported HatenaCategory") ∧
      FeedCategory.Title 10 = .fatal (bytesOf "Unsupported HatenaCategory") ∧
      FeedCategory.URL 10 = .fatal (bytesOf "Unsupported HatenaCategory") := by
  refine ⟨?_, ?_, ?_, ?_, rfl, rfl, rfl, rfl⟩
  · constructor
    · rintro ⟨message, hm⟩ ⟨h0, h9⟩
      obtain ⟨title, _, ht, _⟩ := Title_URL_inside i h0 h9
      rw [ht] at hm
      cases hm
    · exact fun hr => ⟨_, Title_outside i hr⟩
  · constructor
    · rintro ⟨message, hm⟩ ⟨h0, h9⟩
      obtain ⟨_, url, _, hu⟩ := Title_URL_inside i h0 h9
      rw [hu] at hm
      cases hm
    · exact fun hr => ⟨_, URL_outside i hr⟩
  · rw [mem_GetFeedCategoryList]
    constructor
    · rintro ⟨title, ht⟩
      by_contra hr
      rw [Title_outside i hr] at ht
      cases ht
    · rintro ⟨h0, h9⟩
      obtain ⟨title, _, ht, _⟩ := Title_URL_inside i h0 h9
      exact ⟨title, ht⟩
  · rw [mem_GetFeedCategoryList]
    constructor
    · rintro ⟨url, hu⟩
      by_contra hr
      rw [URL_outside i hr] at hu
      cases hu
    · rintro ⟨h0, h9⟩
      obtain ⟨_, url, _, hu⟩ := Title_URL_inside i h0 h9
      exact ⟨url, hu⟩

/-! ## The fetcher -/

/-- The client `Get` uses: the one it is given, or the default one for `nil`. -/
theorem Get_of_url (w : World) (category : FeedCategory) (client : Option Client)
    (url : GoString) (hurl : FeedCategory.URL category = .returns url) :
    Get w category client =
      match (client.getD w.defaultClient) url with
      | .error err => .returns { feed := none, err := some err, body := none }
      | .ok resp =>
        if resp.StatusCode ≠ StatusOK then
          .returns { feed := none, err := some (statusError resp.Status),
                     body := some resp.Body.Close }
        else
          match ioutilReadAll resp.Body with
          | (_, some err, body) =>
            .returns { feed := none, err := some err, body := some body.Close }
          | (data, none, body) =>
            match w.xmlUnmarshal data with
            | .error err =>
              .returns { feed := none, err := some err, body := some body.Close }
            | .ok feed =>
              .returns { feed := some feed, err := none, body := some body.Close } := by
  unfold Get
  rw [hurl]
  cases client <;> rfl

/-- The status text is part of the text of the error made from it. -/
theorem statusError_contains (status : GoString) :
    stringsContains (statusError status).text status = true := by
  rw [stringsContains_iff]
  exact ⟨bytesOf "resp.StatusCode != http.StatusOK : ", [], by simp [statusError]⟩

/-- C14. When the client returns a response (no transport error) whose status code is
not 200, `Get` returns no `Feed` and an error whose text is
`resp.StatusCode != http.StatusOK : ` followed by the observed `resp.Status`,
whatever the body holds and whatever `xml.Unmarshal` would make of it: the status
check comes before reading and decoding. -/
theorem Get_non_200_status_error (w : World) (category : FeedCategory)
    (client : Option Client) (url : GoString) (resp : Response)
    (hurl : FeedCategory.URL category = .returns url)
    (hresp : (client.getD w.defaultClient) url = .ok resp)
    (hstatus : resp.StatusCode ≠ StatusOK) :
    ∃ r err, Get w category client = .returns r ∧ r.feed = none ∧ r.err = some err ∧
      err.text = bytesOf "resp.StatusCode != http.StatusOK : " ++ resp.Status ∧
      stringsContains err.text resp.Status = true := by
  refine ⟨{ feed := none, err := some (statusError resp.Status),
            body := some resp.Body.Close }, statusError resp.Status, ?_, rfl, rfl, rfl,
          statusError_contains resp.Status⟩
  rw [Get_of_url w category client url hurl, hresp]
  simp [hstatus]

/-- A `404 Not Found` answer with a body that would decode: `Get` returns the status
error. -/
theorem Get_non_200_status_error_witness :
    FeedCategory.URL FeedCategoryAll =
        .returns (bytesOf "http://b.hatena.ne.jp/hotentry.rss") ∧
      ((none : Option Client).getD notFoundWorld.defaultClient)
          (bytesOf "http://b.hatena.ne.jp/hotentry.rss") =
        .ok { Status := bytesOf "404 Not Found", StatusCode := 404,
              Body := Body.unread (bytesOf "<rss/>") none } ∧
      (404 : Int) ≠ StatusOK ∧
      ∃ r err, Get notFoundWorld FeedCategoryAll none = .returns r ∧ r.feed = none ∧
        r.err = some err ∧
        err.text = bytesOf "resp.StatusCode != http.StatusOK : " ++ bytesOf "404 Not Found" ∧
        stringsContains err.text (bytesOf "404 Not Found") = true :=
  ⟨rfl, rfl, by decide,
    Get_non_200_status_error notFoundWorld FeedCategoryAll none
      (bytesOf "http://b.hatena.ne.jp/hotentry.rss")
      { Status := bytesOf "404 Not Found", StatusCode := 404,
        Body := Body.unread (bytesOf "<rss/>") none }
      rfl rfl (by decide)⟩

/-- C15. For a category whose `URL()` returns, `Get` returns exactly one of a `Feed`
and an error. It returns a `Feed` with a nil error iff the request succeeds at
transport level, the status is 200, the body is read without error and the body
decodes, and the `Feed` is the decoded one; in every other case it returns a nil
`Feed` and a non-nil error, and a transport, body-read or decode error is the
underlying error itself. -/
theorem Get_feed_or_error (w : World) (category : FeedCategory) (client : Option Client)
    (url : GoString) (hurl : FeedCategory.URL category = .returns url) :
    ∃ r, Get w category client = .returns r ∧
      ((∃ feed, r.feed = some feed ∧ r.err = none) ∨
        (∃ err, r.feed = none ∧ r.err = some err)) ∧
      ((∃ feed, r.feed = some feed ∧ r.err = none) ↔
        ∃ resp data body feed, (client.getD w.defaultClient) url = .ok resp ∧
          resp.StatusCode = StatusOK ∧ ioutilReadAll resp.Body = (data, none, body) ∧
          w.xmlUnmarshal data = .ok feed) ∧
      (∀ resp data body feed, (client.getD w.defaultClient) url = .ok resp →
        resp.StatusCode = StatusOK → ioutilReadAll resp.Body = (data, none, body) →
        w.xmlUnmarshal data = .ok feed → r.feed = some feed) ∧
      (∀ err, (client.getD w.defaultClient) url = .error err → r.err = some err) ∧
      (∀ resp data err body, (client.getD w.defaultClient) url = .ok resp →
        resp.StatusCode = StatusOK → ioutilReadAll resp.Body = (data, some err, body) →
        r.err = some err) ∧
      (∀ resp data body err, (client.getD w.defaultClient) url = .ok resp →
        resp.StatusCode = StatusOK → ioutilReadAll resp.Body = (data, none, body) →
        w.xmlUnmarshal data = .error err → r.err = some err) := by
  rw [Get_of_url w category client url hurl]
  cases hc : (client.getD w.defaultClient) url with
  | error err =>
    refine ⟨_, rfl, ?_, ?_, ?_, ?_, ?_, ?_⟩ <;> simp
  | ok resp =>
    by_cases hs : resp.StatusCode = StatusOK
    · simp only [hs, ne_eq, not_true_eq_false, if_false]
      rcases hread : ioutilReadAll resp.Body with ⟨data, rerr, body⟩
      cases rerr with
      | some err =>
        refine ⟨_, rfl, ?_, ?_, ?_, ?_, ?_, ?_⟩ <;> simp
        all_goals intros
        all_goals simp_all
      | none =>
        cases hx : w.xmlUnmarshal data with
        | error err =>
          simp only [hx]
          refine ⟨_, rfl, ?_, ?_, ?_, ?_, ?_, ?_⟩ <;> simp
          all_goals intros
          all_goals simp_all
        | ok feed =>
          simp only [hx]
          refine ⟨_, rfl, ?_, ?_, ?_, ?_, ?_, ?_⟩ <;> simp
          all_goals intros
          all_goals simp_all
    · simp only [ne_eq, hs, not_false_eq_true, if_true]
      refine ⟨_, rfl, ?_, ?_, ?_, ?_, ?_, ?_⟩ <;> simp
      all_goals intros
      all_goals simp_all

/-- With a client that answers `200 OK` and a body that decodes, `Get` on the All
category returns the decoded feed and a nil error. -/
theorem Get_feed_or_error_witness :
    FeedCategory.URL FeedCategoryAll =
        .returns (bytesOf "http://b.hatena.ne.jp/hotentry.rss") ∧
      ∃ r, Get okWorld FeedCategoryAll none = .returns r ∧
        ((∃ feed, r.feed = some feed ∧ r.err = none) ∨
          (∃ err, r.feed = none ∧ r.err = some err)) ∧
        ((∃ feed, r.feed = some feed ∧ r.err = none) ↔
          ∃ resp data body feed,
            ((none : Option Client).getD okWorld.defaultClient)
                (bytesOf "http://b.hatena.ne.jp/hotentry.rss") = .ok resp ∧
            resp.StatusCode = StatusOK ∧ ioutilReadAll resp.Body = (data, none, body) ∧
            okWorld.xmlUnmarshal data = .ok feed) ∧
        (∀ resp data body feed,
          ((none : Option Client).getD okWorld.defaultClient)
              (bytesOf "http://b.hatena.ne.jp/hotentry.rss") = .ok resp →
          resp.StatusCode = StatusOK → ioutilReadAll resp.Body = (data, none, body) →
          okWorld.xmlUnmarshal data = .ok feed → r.feed = some feed) ∧
        (∀ err,
          ((none : Option Client).getD okWorld.defaultClient)
              (bytesOf "http://b.hatena.ne.jp/hotentry.rss") = .error err →
          r.err = some err) ∧
        (∀ resp data err body,
          ((none : Option Client).getD okWorld.defaultClient)
              (bytesOf "http://b.hatena.ne.jp/hotentry.rss") = .ok resp →
          resp.StatusCode = StatusOK → ioutilReadAll resp.Body = (data, some err, body) →
          r.err = some err) ∧
        (∀ resp data body err,
          ((none : Option Client).getD okWorld.defaultClient)
              (bytesOf "http://b.hatena.ne.jp/hotentry.rss") = .ok resp →
          resp.StatusCode = StatusOK → ioutilReadAll resp.Body = (data, none, body) →
          okWorld.xmlUnmarshal data = .error err → r.err = some err) :=
  ⟨rfl, Get_feed_or_error okWorld FeedCategoryAll none
    (bytesOf "http://b.hatena.ne.jp/hotentry.rss") rfl⟩

/-- C16, as the spec states it, fails: on a `404` answer `Get` closes the body without
reading it; the six bytes of the body are still pending and no `Read` has seen its
end when `Get` returns. -/
theorem Get_non_200_leaves_body_unread :
    Get notFoundWorld FeedCategoryAll none =
        .returns { feed := none, err := some (statusError (bytesOf "404 Not Found")),
                   body := some { pending := bytesOf "<rss/>", failure := none,
                                  ended := false, closed := true } } ∧
      bytesOf "<rss/>" ≠ [] := by
  decide

/-- C16, amended. For every call of `Get` in which the client returns a response, the
response body is closed when `Get` returns, whether `Get` succeeds or fails,
including the failure on a non-200 status. When the status is 200 the body has
first been read to its end (by `ioutil.ReadAll`, up to `io.EOF` or a read error);
when the status is not 200 the body is closed as it was received, without being
read. -/
theorem Get_closes_body (w : World) (category : FeedCategory) (client : Option Client)
    (url : GoString) (resp : Response)
    (hurl : FeedCategory.URL category = .returns url)
    (hresp : (client.getD w.defaultClient) url = .ok resp) :
    ∃ r body, Get w category client = .returns r ∧ r.body = some body ∧
      body.closed = true ∧
      (resp.StatusCode = StatusOK → body.ended = true ∧ body.pending = []) ∧
      (resp.StatusCode ≠ StatusOK →
        body = resp.Body.Close ∧ body.pending = resp.Body.pending ∧
          body.ended = resp.Body.ended) := by
  rw [Get_of_url w category client url hurl, hresp]
  by_cases hs : resp.StatusCode = StatusOK
  · simp only [hs, ne_eq, not_true_eq_false, if_false]
    cases hfail : resp.Body.failure with
    | some err =>
      simp only [ioutilReadAll, hfail]
      exact ⟨_, _, rfl, rfl, rfl, fun _ => ⟨rfl, rfl⟩, fun h => h.elim⟩
    | none =>
      simp only [ioutilReadAll, hfail]
      cases hx : w.xmlUnmarshal resp.Body.pending with
      | error err =>
        exact ⟨_, _, rfl, rfl, rfl, fun _ => ⟨rfl, rfl⟩, fun h => h.elim⟩
      | ok feed =>
        exact ⟨_, _, rfl, rfl, rfl, fun _ => ⟨rfl, rfl⟩, fun h => h.elim⟩
  · simp only [ne_eq, hs, not_false_eq_true, if_true]
    exact ⟨_, _, rfl, rfl, rfl, fun h => h.elim, fun _ => ⟨rfl, rfl, rfl⟩⟩

/-- On a `200 OK` answer `Get` reads the body to its end and closes it. -/
theorem Get_closes_body_witness :
    FeedCategory.URL FeedCategoryAll =
        .returns (bytesOf "http://b.hatena.ne.jp/hotentry.rss") ∧
      ((none : Option Client).getD okWorld.defaultClient)
          (bytesOf "http://b.hatena.ne.jp/hotentry.rss") =
        .ok { Status := bytesOf "200 OK", StatusCode := 200,
              Body := Body.unread (bytesOf "<rss/>") none } ∧
      ∃ r body, Get okWorld FeedCategoryAll none = .returns r ∧ r.body = some body ∧
        body.closed = true ∧
        ((200 : Int) = StatusOK → body.ended = true ∧ body.pending = []) ∧
        ((200 : Int) ≠ StatusOK →
          body = (Body.unread (bytesOf "<rss/>") none).Close ∧
            body.pending = (Body.unread (bytesOf "<rss/>") none).pending ∧
            body.ended = (Body.unread (bytesOf "<rss/>") none).ended) :=
  ⟨rfl, rfl,
    Get_closes_body okWorld FeedCategoryAll none (bytesOf "http://b.hatena.ne.jp/hotentry.rss")
      { Status := bytesOf "200 OK", StatusCode := 200,
        Body := Body.unread (bytesOf "<rss/>") none }
      rfl rfl⟩

/-! ## Filter, then sort -/

/-- C17. On a three-item sequence whose bookmark counts are `[50, 300, 120]`,
`FilterByBookmarkCount` with threshold `100` leaves exactly the two items with
counts `[300, 120]`, in that order, and a following `SortByBookmarkCount` reorders
them to `[120, 300]`. `sort.Sort` is the standard library's: the statement holds
for every strategy that turns the integer slice `[300, 120]` into `[120, 300]`. -/
theorem filter_then_sort_scenario (strategy : SortStrategy) (a b c : Item)
    (spare : List Item)
    (ha : a.BookmarkCount = 50) (hb : b.BookmarkCount = 300) (hc : c.BookmarkCount = 120)
    (hsort : sortSort strategy IntSlice [300, 120] = some [120, 300]) :
    ∃ filtered sorted,
      FilterByBookmarkCount { elems := [a, b, c], spare := spare } 100 = some filtered ∧
      filtered.elems = [b, c] ∧ counts filtered = [300, 120] ∧
      SortByBookmarkCount strategy filtered = some sorted ∧
      sorted.elems = [c, b] ∧ counts sorted = [120, 300] := by
  have hfilter : FilterByBookmarkCount { elems := [a, b, c], spare := spare } 100 =
      some { elems := [b, c], spare := c :: spare } := by
    unfold FilterByBookmarkCount
    rw [Filter_eq]
    simp [List.filter, ha, hb, hc]
  have hcounts : counts { elems := [b, c], spare := c :: spare } = [300, 120] := by
    simp [counts, hb, hc]
  have hlen : hatenaItems.methods.Len { elems := [b, c], spare := c :: spare } =
      IntSlice.Len [300, 120] := rfl
  have hsim := SortProg.run_counts (strategy (IntSlice.Len [300, 120]))
    { elems := [b, c], spare := c :: spare }
  unfold sortSort at hsort
  rw [hcounts, hsort] at hsim
  cases hrun : (strategy (IntSlice.Len [300, 120])).run hatenaItems.methods
      { elems := [b, c], spare := c :: spare } with
  | none => simp [hrun] at hsim
  | some sorted =>
    rw [hrun] at hsim
    simp only [Option.map_some', Option.some.injEq] at hsim
    have hperm := (SortProg.run_perm _ _ sorted hrun).1
    refine ⟨_, sorted, hfilter, rfl, hcounts, ?_, ?_, hsim⟩
    · unfold SortByBookmarkCount sortSort
      rw [hlen]
      exact hrun
    · have hlen2 := hperm.length_eq
      obtain ⟨elems, sp⟩ := sorted
      simp only [counts] at hsim
      match elems, hsim, hperm, hlen2 with
      | [x, y], hxy, hp, _ =>
        simp only [List.map_cons, List.map_nil, List.cons.injEq, and_true] at hxy
        have hx : x ∈ [b, c] := hp.subset (by simp)
        have hy : y ∈ [b, c] := hp.subset (by simp)
        simp only [List.mem_cons, List.mem_singleton, List.mem_nil_iff, or_false] at hx hy
        have hxc : x = c := by
          rcases hx with h | h
          · rw [h, hb] at hxy
            omega
          · exact h
        have hyb : y = b := by
          rcases hy with h | h
          · exact h
          · rw [h, hc] at hxy
            omega
        rw [hxc, hyb]

/-- The scenario with the library's insertion sort and three sample items. -/
theorem filter_then_sort_scenario_witness :
    (itemWithCount 50).BookmarkCount = 50 ∧ (itemWithCount 300).BookmarkCount = 300 ∧
      (itemWithCount 120).BookmarkCount = 120 ∧
      sortSort insertionSort IntSlice [300, 120] = some [120, 300] ∧
      ∃ filtered sorted,
        FilterByBookmarkCount
            { elems := [itemWithCount 50, itemWithCount 300, itemWithCount 120],
              spare := [] } 100 = some filtered ∧
        filtered.elems = [itemWithCount 300, itemWithCount 120] ∧
        counts filtered = [300, 120] ∧
        SortByBookmarkCount insertionSort filtered = some sorted ∧
        sorted.elems = [itemWithCount 120, itemWithCount 300] ∧
        counts sorted = [120, 300] :=
  ⟨rfl, rfl, rfl, by decide,
    filter_then_sort_scenario insertionSort (itemWithCount 50) (itemWithCount 300)
      (itemWithCount 120) [] rfl rfl rfl (by decide)⟩

/-! ## The in-place compaction against the out-of-place filter -/

/-- The out-of-place filter is the library's list filter with the test negated. -/
theorem pureFilter_eq_filter (reject : Item → Bool) (l : List Item) :
    pureFilter reject l = l.filter (fun x => !reject x) := by
  induction l with
  | nil => rfl
  | cons x l ih => cases hx : reject x <;> simp [pureFilter, hx, ih]

/-- The state of `Filter` after `j` iterations of its loop. -/
theorem Filter.loop_after (items : Slice) (reject : Item → Bool) (j : Nat)
    (hj : j ≤ items.len) :
    Filter.loop reject j 0 { backing := items.backing, dest := .shared 0 } =
      some { backing := pureFilter reject (items.elems.take j) ++
               ((items.elems.take j).drop (pureFilter reject (items.elems.take j)).length ++
                 (items.elems.drop j ++ items.spare)),
             dest := .shared (pureFilter reject (items.elems.take j)).length } := by
  have h := Filter.loop_shared reject (items.elems.drop j ++ items.spare)
    (items.elems.take j) [] []
  have hlen : (items.elems.take j).length = j := by
    rw [List.length_take]
    exact Nat.min_eq_left hj
  simp only [List.length_nil, Nat.add_zero, List.nil_append, Nat.zero_add, hlen,
    ← List.append_assoc, List.take_append_drop] at h
  rw [pureFilter_eq_filter]
  simp only [Slice.backing, ← List.append_assoc]
  exact h

/-- C18. The in-place compaction of `Filter` is equivalent to filtering into a new
sequence. With the read index of the range loop and the write index
`len(filteredItem)` over the same backing array: after every number `j` of
iterations the slice `filteredItem` still shares the backing array (no
reallocation, the array keeps its length `cap(*items)`), the write index `w` is at
most the read index `j`, the cells below `w` hold the out-of-place filter of the
first `j` elements, and the cells from `j` on are as they were, so no element is
overwritten before it is read. At the end `*items` is the out-of-place filter of
the original elements, over the same array. -/
theorem Filter_refines_pureFilter (items : Slice) (reject : Item → Bool) :
    (∀ j, j ≤ items.len →
      ∃ backing w,
        Filter.loop reject j 0 { backing := items.backing, dest := .shared 0 } =
          some { backing := backing, dest := .shared w } ∧
        w ≤ j ∧ w ≤ items.len ∧
        backing.length = items.cap ∧
        backing.take w = pureFilter reject (items.elems.take j) ∧
        backing.drop j = items.backing.drop j) ∧
    (∃ out, Filter items reject = some out ∧
      out.elems = pureFilter reject items.elems ∧
      out.len ≤ items.len ∧
      out.cap = items.cap ∧
      out.backing.drop items.len = items.backing.drop items.len) := by
  have hle : ∀ j, j ≤ items.len →
      (pureFilter reject (items.elems.take j)).length ≤ j := by
    intro j hj
    rw [pureFilter_eq_filter]
    refine (List.length_filter_le _ _).trans ?_
    rw [List.length_take]
    exact Nat.min_le_left _ _
  have htake : ∀ j, j ≤ items.len → (items.elems.take j).length = j := by
    intro j hj
    rw [List.length_take]
    exact Nat.min_eq_left hj
  have hstate : ∀ j, j ≤ items.len →
      (pureFilter reject (items.elems.take j) ++
        ((items.elems.take j).drop (pureFilter reject (items.elems.take j)).length ++
          (items.elems.drop j ++ items.spare))).length = items.cap ∧
      (pureFilter reject (items.elems.take j) ++
        ((items.elems.take j).drop (pureFilter reject (items.elems.take j)).length ++
          (items.elems.drop j ++ items.spare))).drop j = items.backing.drop j := by
    intro j hj
    have h1 := hle j hj
    have h2 := htake j hj
    have hj' : j ≤ items.elems.length := hj
    constructor
    · simp only [List.length_append, List.length_drop, h2, Slice.cap]
      omega
    · rw [← List.append_assoc, List.drop_append_of_le_length (by
        simp only [List.length_append, List.length_drop, h2]
        omega)]
      rw [List.drop_eq_nil_of_le (by
        simp only [List.length_append, List.length_drop, h2]
        omega)]
      simp only [Slice.backing, List.nil_append]
      rw [List.drop_append_of_le_length hj']
  refine ⟨?_, ?_⟩
  · intro j hj
    refine ⟨_, _, Filter.loop_after items reject j hj, hle j hj, (hle j hj).trans hj,
      (hstate j hj).1, ?_, (hstate j hj).2⟩
    simp
  · have hfl : (items.elems.filter (fun x => !reject x)).length ≤ items.elems.length :=
      List.length_filter_le _ _
    refine ⟨_, Filter_eq items reject, (pureFilter_eq_filter reject items.elems).symm, hfl,
      ?_, ?_⟩
    · simp only [Slice.cap, List.length_drop, List.length_append]
      omega
    · simp only [Slice.backing, Slice.len]
      rw [List.drop_append_eq_append_drop, List.drop_eq_nil_of_le hfl, List.nil_append,
        List.drop_drop]
      congr 1
      omega

/-! ## The empty pattern, and filters in sequence -/

/-- Every string, the empty one included, contains the empty string. -/
theorem stringsContains_empty (s : GoString) : stringsContains s [] = true := by
  cases s <;> simp [stringsContains, startsWith]

/-- A `Filter` that rejects every element of the slice leaves no element. -/
theorem Filter_all_rejected (items : Slice) (reject : Item → Bool)
    (h : ∀ x ∈ items.elems, reject x = true) :
    Filter items reject = some { elems := [], spare := items.elems ++ items.spare } := by
  have hf : items.elems.filter (fun x => !reject x) = [] := by
    rw [List.filter_eq_nil_iff]
    intro a ha
    simp [h a ha]
  rw [Filter_eq, hf]
  simp

/-- C19. If the pattern list passed to `FilterByTitle` (or to `FilterByLink`) contains
the empty string, every item is removed and the sequence becomes empty, because
every `Title` (or `Link`), the empty one included, contains the empty string. -/
theorem Filter_empty_pattern_removes_all (items : Slice) (patterns : List GoString)
    (hempty : [] ∈ patterns) :
    (∃ out, FilterByTitle items patterns = some out ∧ out.elems = [] ∧ out.len = 0) ∧
      (∃ out, FilterByLink items patterns = some out ∧ out.elems = [] ∧ out.len = 0) ∧
      (∀ s : GoString, stringsContains s [] = true) := by
  refine ⟨⟨_, Filter_all_rejected items _ ?_, rfl, rfl⟩,
    ⟨_, Filter_all_rejected items _ ?_, rfl, rfl⟩, stringsContains_empty⟩
  · intro x _
    exact (containsAny_eq_true _ _).2 ⟨[], hempty, stringsContains_empty _⟩
  · intro x _
    exact (containsAny_eq_true _ _).2 ⟨[], hempty, stringsContains_empty _⟩

/-- Two items, one of them with empty title and link, filtered with the patterns
`"a"` and `""`: nothing is left. -/
theorem Filter_empty_pattern_removes_all_witness :
    ([] : GoString) ∈ [bytesOf "a", []] ∧
      (∃ out, FilterByTitle
          { elems := [itemOf (bytesOf "news") (bytesOf "http://x") 3, itemOf [] [] 5],
            spare := [] } [bytesOf "a", []] = some out ∧ out.elems = [] ∧ out.len = 0) ∧
      (∃ out, FilterByLink
          { elems := [itemOf (bytesOf "news") (bytesOf "http://x") 3, itemOf [] [] 5],
            spare := [] } [bytesOf "a", []] = some out ∧ out.elems = [] ∧ out.len = 0) ∧
      (∀ s : GoString, stringsContains s [] = true) :=
  ⟨by decide,
    Filter_empty_pattern_removes_all
      { elems := [itemOf (bytesOf "news") (bytesOf "http://x") 3, itemOf [] [] 5],
        spare := [] } [bytesOf "a", []] (by decide)⟩

/-- The elements two filters in sequence keep are those a single filter with the
disjunction of the predicates keeps. -/
theorem filter_filter_or (r1 r2 : Item → Bool) (l : List Item) :
    (l.filter (fun x => !r1 x)).filter (fun x => !r2 x) =
      l.filter (fun x => !(r1 x || r2 x)) := by
  rw [List.filter_filter]
  congr 1
  funext x
  cases r1 x <;> cases r2 x <;> rfl

/-- C20. Filters compose as a disjunction and commute: `Filter` with `r1` followed by
`Filter` with `r2` yields the same sequence as one `Filter` with `r1 or r2`, and as
`Filter` with `r2` followed by `Filter` with `r1`; and `FilterByBookmarkCount` with
`T1` then `T2` yields the same sequence as `FilterByBookmarkCount` with
`max(T1, T2)`. -/
theorem Filter_compose_commute (items : Slice) (r1 r2 : Item → Bool) (T1 T2 : Int) :
    (∃ first12 then12 first21 then21 both,
      Filter items r1 = some first12 ∧ Filter first12 r2 = some then12 ∧
      Filter items r2 = some first21 ∧ Filter first21 r1 = some then21 ∧
      Filter items (fun item => r1 item || r2 item) = some both ∧
      then12.elems = both.elems ∧ then21.elems = both.elems ∧
      then12.elems = then21.elems) ∧
    (∃ first second single,
      FilterByBookmarkCount items T1 = some first ∧
      FilterByBookmarkCount first T2 = some second ∧
      FilterByBookmarkCount items (max T1 T2) = some single ∧
      second.elems = single.elems) := by
  have h12 := filter_filter_or r1 r2 items.elems
  have h21 := filter_filter_or r2 r1 items.elems
  have hcomm : (fun x => !(r2 x || r1 x)) = (fun x => !(r1 x || r2 x)) := by
    funext x
    rw [Bool.or_comm]
  rw [hcomm] at h21
  refine ⟨⟨_, _, _, _, _, Filter_eq items r1, Filter_eq _ r2, Filter_eq items r2,
    Filter_eq _ r1, Filter_eq items _, h12, h21, h12.trans h21.symm⟩, ?_⟩
  refine ⟨_, _, _, Filter_eq items _, Filter_eq _ _, Filter_eq items _, ?_⟩
  simp only []
  rw [filter_filter_or]
  congr 1
  funext x
  rw [Bool.eq_iff_iff]
  simp

end Hatenarss
